import Mathlib

/-!
Verification development for the Execution & Usage Telemetry Subsystem of the
workflow-tools repository (the macOS Shortcuts MCP server under
`mcp-servers/shortcuts-mcp/dist`).

The JavaScript source is shallowly embedded: each source function becomes an
executable Lean definition over explicit state (association lists standing for
the on-disk JSON documents and the executions directory), and fallible code
returns `Except`.  Wall-clock reads (`Date.now`, `new Date().toISOString()`)
become explicit parameters, and the outcome of an external process invocation
or of a JS `Date`/`JSON` parse becomes an explicit argument describing what the
runtime returned.
-/

namespace WorkflowTools

/-- Result of evaluating a JS timestamp value the way `isOlderThan24Hrs` sees
it: `missing` for `undefined`/`null`/`""` (falsy values), `unparseable` for a
present string (or `Date`) whose `getTime()` is `NaN`, and `parsed ms` for a
successfully parsed epoch-milliseconds value. -/
inductive Timestamp where
  | missing
  | unparseable
  | parsed (ms : Int)
deriving DecidableEq

/-- Embedding of `isOlderThan24Hrs(timestamp)` from `helpers.js`:
`if (!timestamp) return true;` then parse, then
`return !isNaN(ts) && now - ts > 24 * 60 * 60 * 1000`. -/
def isOlderThan24Hrs (now : Int) : Timestamp → Bool
  | .missing => true
  | .unparseable => false
  | .parsed ts => decide (now - ts > 24 * 60 * 60 * 1000)

/-- Decidable substring test on character lists: the embedding of JS
`String.prototype.includes`.  `listInfix pat l` is true iff `pat` occurs
contiguously inside `l`. -/
def listInfix (pat : List Char) : List Char → Bool
  | [] => pat.isEmpty
  | c :: rest => pat.isPrefixOf (c :: rest) || listInfix pat rest

/-- Embedding of JS `s.includes(pat)`. -/
def includes (s pat : String) : Bool :=
  listInfix pat.toList s.toList

/-! ## Telemetry store (`shortcuts-usage.js`) -/

/-- One telemetry record as persisted by `recordExecution`:
`{ duration, shortcut, success, timestamp }`. -/
structure Execution where
  duration : Int
  shortcut : String
  success : Bool
  timestamp : String
deriving DecidableEq

/-- Parse classification of one file's content in the executions directory, as
seen through `JSON.parse`: an array of records, a parseable non-array value,
or invalid JSON (parse throws). -/
inductive RawFile where
  | arr (records : List Execution)
  | nonArray
  | invalid
deriving DecidableEq

/-- The executions directory, modelled as an association list from filename to
file content. -/
abbrev Fs := List (String × RawFile)

/-- First-match association-list lookup (JS object/file lookup by name). -/
def lookupKey {α : Type} : List (String × α) → String → Option α
  | [], _ => none
  | (n, c) :: rest, name => if n = name then some c else lookupKey rest name

/-- Embedding of `writeFile`: overwrite the named entry if present, else
create it. -/
def setKey {α : Type} (l : List (String × α)) (name : String) (v : α) :
    List (String × α) :=
  if (lookupKey l name).isSome then
    l.map fun p => if p.1 = name then (name, v) else p
  else l ++ [(name, v)]

/-- Characters of a string before the first `'T'` (all of it if none). -/
def takeUntilT : List Char → List Char
  | [] => []
  | c :: rest => if c = 'T' then [] else c :: takeUntilT rest

/-- Embedding of `timestamp.split("T")[0]` from `recordExecution`. -/
def dateString (ts : String) : String :=
  String.mk (takeUntilT ts.toList)

/-- Embedding of the `DATED_FILE` pattern `^\d{4}-\d{2}-\d{2}\.json$`. -/
def datedFile (s : String) : Bool :=
  match s.toList with
  | [a, b, c, d, h₁, e, f, h₂, g, i, p₁, p₂, p₃, p₄, p₅] =>
    a.isDigit && b.isDigit && c.isDigit && d.isDigit && (h₁ == '-') &&
    e.isDigit && f.isDigit && (h₂ == '-') && g.isDigit && i.isDigit &&
    (p₁ == '.') && (p₂ == 'j') && (p₃ == 's') && (p₄ == 'o') && (p₅ == 'n')
  | _ => false

/-- The `EXECUTIONS` path constant, parameterized by `process.env.HOME`. -/
def executionsDir (home : String) : String :=
  home ++ "/.shortcuts-mcp/executions/"

/-- Embedding of `recordExecution` from `shortcuts-usage.js`: derive the daily
filename from the timestamp's date component, `load` the existing array (the
strict primitive: a present but unparseable file is a hard error), push the
new record, write back.  The current ISO timestamp `ts` is an explicit
parameter. -/
def recordExecution (home : String) (fs : Fs) (duration : Int)
    (shortcut : String) (success : Bool) (ts : String) : Except String Fs :=
  let filename := dateString ts ++ ".json"
  let execution : Execution := ⟨duration, shortcut, success, ts⟩
  match lookupKey fs filename with
  | none => .ok (setKey fs filename (.arr [execution]))
  | some (.arr l) => .ok (setKey fs filename (.arr (l ++ [execution])))
  | some .invalid =>
    .error ("File at " ++ executionsDir home ++ filename ++
      " corrupted - please reset")
  | some .nonArray => .error "TypeError: executions.push is not a function"

/-- Insertion into a descending-sorted list of names. -/
def insertDesc (x : String) : List String → List String
  | [] => [x]
  | y :: ys => if y < x then x :: y :: ys else y :: insertDesc x ys

/-- Embedding of `.sort((a, b) => b.localeCompare(a))`: sort names in
descending order. -/
def sortDesc : List String → List String
  | [] => []
  | x :: xs => insertDesc x (sortDesc xs)

/-- Records contributed by one daily-log file to the aggregate read: the
parsed array if the file parses to an array, nothing otherwise. -/
def fileRecords (fs : Fs) (name : String) : List Execution :=
  match lookupKey fs name with
  | some (.arr l) => l
  | _ => []

/-- Result of `loadExecutions`: the reported day count, the flattened record
list, and the names of the skipped (warned-about) files. -/
structure LoadResult where
  days : Nat
  executions : List Execution
  warnings : List String

/-- Embedding of `loadExecutions` from `shortcuts-usage.js`: list the
date-named files, sort them descending, concatenate the records of every file
that parses to an array, warn about (and skip) every other file; the reported
`days` is the number of date-named files attempted. -/
def loadExecutions (fs : Fs) : LoadResult :=
  let jsonFiles := sortDesc ((fs.map Prod.fst).filter datedFile)
  { days := jsonFiles.length
    executions := jsonFiles.flatMap (fileRecords fs)
    warnings := jsonFiles.filter fun n =>
      match lookupKey fs n with
      | some (.arr _) => false
      | _ => true }

/-- Sequential embedding of N `recordExecution` calls. -/
def recordMany (home : String) (fs : Fs) :
    List (Int × String × Bool × String) → Except String Fs
  | [] => .ok fs
  | (d, s, b, ts) :: rest =>
    match recordExecution home fs d s b ts with
    | .ok fs' => recordMany home fs' rest
    | .error e => .error e

/-- Well-formedness of an executions directory produced by the append path:
distinct filenames, every file an array of records, every filename date-named
and matching the date component of each record it holds. -/
def GoodFs (fs : Fs) : Prop :=
  (fs.map Prod.fst).Nodup ∧
  ∀ p ∈ fs, ∃ l, p.2 = RawFile.arr l ∧ datedFile p.1 = true ∧
    ∀ r ∈ l, p.1 = dateString r.timestamp ++ ".json"

/-- Total number of records held across all array-valued files. -/
def totalRecords (fs : Fs) : Nat :=
  (fs.map fun p =>
    match p.2 with
    | RawFile.arr l => l.length
    | _ => 0).sum

/-! ## Execution invoker (`shortcuts.js`, `runShortcut`) -/

/-- Outcome of the `execAsync(command)` call inside `runShortcut`: either the
promise resolved with `{ stdout, stderr }`, or it rejected with an error that
is (`isExec = true`) or is not an `ExecException`, carrying `message`. -/
inductive ExecOutcome where
  | ok (stdout stderr : String)
  | err (isExec : Bool) (message : String)
deriving DecidableEq

/-- Log entries emitted by `runShortcut` via `logger`. -/
inductive LogEntry where
  | warnStderr (isPermissionRelated isTimeout : Bool) (shortcut stderr : String)
  | errorFailed (shortcut : String) (duration : Int)
  | errorPermissionDenied (shortcut solution : String)
deriving DecidableEq

/-- Everything observable from one `runShortcut` call: the executions
directory after the call, the returned output or thrown error, and the
emitted log entries. -/
structure RunResult where
  fs : Fs
  result : Except String String
  logs : List LogEntry

/-- The permission test from `runShortcut`:
`error.message.includes("1743") || error.message.includes("permission")`. -/
def isPermissionSignal (msg : String) : Bool :=
  includes msg "1743" || includes msg "permission"

/-- The actionable guidance logged by `runShortcut` on a permission failure. -/
def permissionSolution : String :=
  "Grant automation permissions in System Preferences → Privacy & Security"

/-- The success flag `runShortcut` hands to `recordExecution` for an
invocation outcome. -/
def execSuccess : ExecOutcome → Bool
  | .ok _ _ => true
  | .err _ _ => false

/-- Embedding of `runShortcut(shortcut, input)` from `shortcuts.js`.  The
external invocation's outcome, its measured wall-clock `duration`, and the
ISO timestamp `ts` read inside `recordExecution` are explicit arguments; `fs`
is the executions directory seen by the fallible `recordExecution`.  When
`recordExecution` throws (corrupt daily log), the `try` path falls into the
`catch` block, whose own `recordExecution` call throws the same store error
again — so the store error propagates (the descriptive `Failed to run …`
throw is never reached) and no record is appended; the store error is not an
`ExecException`, so the permission special case does not fire for it. -/
def runShortcut (home : String) (fs : Fs) (shortcut : String)
    (_input : Option String) (outcome : ExecOutcome) (duration : Int)
    (ts : String) : RunResult :=
  match outcome with
  | .ok stdout stderr =>
    let warnLogs :=
      if stderr ≠ "" then
        [LogEntry.warnStderr
          (includes stderr "permission" || includes stderr "access")
          (includes stderr "timeout") shortcut stderr]
      else []
    let output :=
      if stdout ≠ "" ∧ stdout ≠ "missing value\n" then stdout
      else "Shortcut completed successfully"
    match recordExecution home fs duration shortcut true ts with
    | .ok fs' => { fs := fs', result := .ok output, logs := warnLogs }
    | .error e =>
      { fs := fs
        result := .error e
        logs := warnLogs ++ [LogEntry.errorFailed shortcut duration] }
  | .err isExec msg =>
    let logs :=
      [LogEntry.errorFailed shortcut duration] ++
        (if isExec && isPermissionSignal msg then
          [LogEntry.errorPermissionDenied shortcut permissionSolution]
        else [])
    match recordExecution home fs duration shortcut false ts with
    | .ok fs' =>
      { fs := fs'
        result := .error
          (if isExec then "Failed to run " ++ shortcut ++ " shortcut: " ++ msg
           else msg)
        logs := logs }
    | .error e => { fs := fs, result := .error e, logs := logs }

/-- Records already stored for the date of timestamp `ts` (empty when the
daily log is absent or not an array). -/
def pastRecords (fs : Fs) (ts : String) : List Execution :=
  match lookupKey fs (dateString ts ++ ".json") with
  | some (.arr l) => l
  | _ => []

/-! ## JSON documents and deep merge (`@fastify/deepmerge` defaults) -/

/-- JSON values, the shape of the profile and statistics documents. -/
inductive J where
  | null
  | bool (b : Bool)
  | num (n : Int)
  | str (s : String)
  | arr (elems : List J)
  | obj (fields : List (String × J))

mutual

/-- Embedding of `deepmerge()` from `@fastify/deepmerge` with default
options, as used by `saveUserProfile` and `saveStatistics`: objects merge
key-wise (target-only keys first, then all source keys, shared keys merged
recursively), arrays concatenate, anything else is replaced by the source. -/
def merge : J → J → J
  | .obj t, .obj s =>
    .obj ((t.filter fun p => (lookupKey s p.1).isNone) ++ mergeSource t s)
  | .arr t, .arr s => .arr (t ++ s)
  | _, s => s
termination_by _ b => sizeOf b

/-- Merged values for the source keys in `mergeObject`. -/
def mergeSource : List (String × J) → List (String × J) → List (String × J)
  | _, [] => []
  | t, (k, sv) :: rest =>
    (k, match lookupKey t k with
        | some tv => merge tv sv
        | none => sv) :: mergeSource t rest
termination_by _ s => sizeOf s

end

/-- Field lookup on a JSON value (`none` on non-objects). -/
def lookupField (j : J) (k : String) : Option J :=
  match j with
  | .obj fields => lookupKey fields k
  | _ => none

/-- Embedding of a JS property assignment `j[k] = v` on an object. -/
def setField (j : J) (k : String) (v : J) : J :=
  match j with
  | .obj fields => .obj (setKey fields k v)
  | other => other

/-- Embedding of `saveUserProfile(data)` from `shortcuts-usage.js`: load the
stored profile document and deep-merge the partial update into it (the
write-back is the returned document). -/
def saveUserProfile (stored data : J) : J :=
  merge stored data

/-- Embedding of `saveStatistics(data)` from `shortcuts-usage.js`: stamp
`data.generatedAt` with the current ISO time, load the stored statistics
document, deep-merge the stamped update into it. -/
def saveStatistics (now : String) (stored data : J) : J :=
  merge stored (setField data "generatedAt" (.str now))

/-! ## Statistics engine (`sampling.js`, `requestStatistics`) -/

/-- Outcome of the `buildRequest` sampling call as observed by
`requestStatistics`: the rejected-and-caught case (`undefined` after
`.catch(logger.error)`), a response whose content type is not `"text"`, or a
text response together with the result of `tryJSONParse` on its text. -/
inductive SamplingOutcome where
  | failed
  | nonText
  | text (parsed : Option J)

/-- The stored Statistics Snapshot as seen by `requestStatistics`: the
classification of its `generatedAt` field under the JS date parse, plus the
loaded document. -/
structure StatsDoc where
  generatedAt : Timestamp
  body : J

/-- Value returned by `requestStatistics`: the loaded snapshot as-is, a
freshly generated (and saved) statistics object, the `{}` fallback, or a
non-object parse result returned unchecked. -/
inductive StatsResult where
  | doc (d : StatsDoc)
  | generated (fields : List (String × J))
  | empty
  | raw (v : J)

/-- Observable outcome of one `requestStatistics` call: the returned value,
whether the sampling capability was invoked, and whether a new snapshot was
persisted. -/
structure RSOut where
  result : StatsResult
  sampled : Bool
  saved : Bool

/-- Embedding of `requestStatistics(session)` from `sampling.js`: return the
loaded snapshot as-is when fresh; otherwise invoke sampling iff the session
has the capability and `days >= 3 && executions.length >= 20`; parse a text
response and persist it only when it is a non-null, non-array object; in
every other case fall back without saving. -/
def requestStatistics (now : Int) (stats : StatsDoc) (samplingCap : Bool)
    (days : Nat) (executions : List Execution) (res : SamplingOutcome) :
    RSOut :=
  if isOlderThan24Hrs now stats.generatedAt = false then
    ⟨.doc stats, false, false⟩
  else if samplingCap = true ∧ 3 ≤ days ∧ 20 ≤ executions.length then
    match res with
    | .failed => ⟨.doc stats, true, false⟩
    | .nonText => ⟨.doc stats, true, false⟩
    | .text none => ⟨.empty, true, false⟩
    | .text (some (.obj fields)) => ⟨.generated fields, true, true⟩
    | .text (some .null) => ⟨.empty, true, false⟩
    | .text (some v) => ⟨.raw v, true, false⟩
  else ⟨.doc stats, false, false⟩

/-! ## Catalog cache (`shortcuts-usage.js` of the current server, found in
`src/skills/swift-dev/SKILL.md`) -/

/-- One catalog value: `{ id }` from the parse, optionally enriched with a
`purposes` array by `enrichShortcutsWithAnnotations`. -/
structure ShortcutInfo where
  id : String
  purposes : Option (List String)
deriving DecidableEq

/-- Embedding of `cliOutput.split("\n")` on character lists. -/
def splitLines : List Char → List (List Char)
  | [] => [[]]
  | c :: rest =>
    if c = '\n' then [] :: splitLines rest
    else
      match splitLines rest with
      | l :: ls => (c :: l) :: ls
      | [] => [[c]]

/-- Whether `seen` can be split as `name ++ ws` with both parts nonempty and
`ws` whitespace — the `(.+?)\s+` prefix of the `parseShortcutsList` line
pattern (`.` matches whitespace too, so `seen` may even be all whitespace as
long as it has at least two characters). -/
def validPre (seen : List Char) : Bool :=
  match seen.reverse with
  | c :: rest => c.isWhitespace && !rest.isEmpty
  | [] => false

/-- The name captured by the lazy `(.+?)` group: `seen` with its maximal
trailing whitespace run removed, or — when `seen` is all whitespace — its
first character alone (the lazy group takes the minimal match). -/
def nameOf (seen : List Char) : List Char :=
  let stripped := (seen.reverse.dropWhile Char.isWhitespace).reverse
  if stripped.isEmpty then seen.take 1 else stripped

/-- Scan for the leftmost `(` that starts the id group: everything after it
(up to the line's final `)`, already stripped by the caller) must be a
nonempty run without `)`, and what precedes must be name + whitespace.  The
leftmost such `(` corresponds to the lazy group's minimal match. -/
def findSplit (seen : List Char) : List Char → Option (List Char × List Char)
  | [] => none
  | c :: rest =>
    if c = '(' then
      if !rest.isEmpty && rest.all (· ≠ ')') && validPre seen then
        some (nameOf seen, rest)
      else findSplit (seen ++ [c]) rest
    else findSplit (seen ++ [c]) rest

/-- Embedding of one line's match against `^(.+?)\s+\(([^)]+)\)\s*$` in
`parseShortcutsList`: strip trailing whitespace, require the final `)`, and
split the remainder into captured name and id. -/
def parseLine (line : List Char) : Option (String × String) :=
  match (line.reverse.dropWhile Char.isWhitespace) with
  | ')' :: restRev =>
    match findSplit [] restRev.reverse with
    | some (name, id) => some (String.mk name, String.mk id)
    | none => none
  | _ => none

/-- Embedding of `parseShortcutsList(cliOutput)`: match every line against
the name/id pattern and build the `{name → {id}}` map (later lines with the
same name overwrite in place). -/
def parseShortcutsList (cliOutput : String) : List (String × ShortcutInfo) :=
  (splitLines cliOutput.toList).foldl
    (fun map line =>
      match parseLine line with
      | some (name, id) => setKey map name ⟨id, none⟩
      | none => map) []

/-- Embedding of `enrichShortcutsWithAnnotations(shortcuts)`: without an
`annotations` key on the profile the catalog is returned as-is; otherwise
every shortcut whose annotation entry has a nonempty `purposes` list gets
that list overlaid onto its entry. -/
def enrichShortcutsWithAnnotations
    (annotations : Option (List (String × List String)))
    (shortcuts : List (String × ShortcutInfo)) :
    List (String × ShortcutInfo) :=
  match annotations with
  | none => shortcuts
  | some ann =>
    shortcuts.map fun p => (p.1,
      match lookupKey ann p.1 with
      | some purposes =>
        if purposes.length ≠ 0 then ⟨p.2.id, some purposes⟩ else p.2
      | none => p.2)

/-- State of the shortcuts cache file as `getShortcutsList` observes it:
absent, unreadable (read or `JSON.parse` throws — caught, treated as a
miss), or a parsed `{ shortcuts, timestamp }` document whose timestamp is
classified like every other JS date parse. -/
inductive CacheState where
  | absent
  | unreadable
  | cached (shortcuts : List (String × ShortcutInfo)) (timestamp : Timestamp)

/-- Embedding of `getShortcutsList()` of the current server: a readable
cache within the 24-hour TTL is returned (enriched with current
annotations); otherwise the external listing is parsed, the raw parse is
written back to the cache with a fresh timestamp, and the enriched parse is
returned.  Returns the catalog together with the written cache state. -/
def getShortcutsList (now : Int) (cache : CacheState)
    (annotations : Option (List (String × List String)))
    (cliOutput : String) :
    List (String × ShortcutInfo) × CacheState :=
  match cache with
  | .cached shortcuts timestamp =>
    if isOlderThan24Hrs now timestamp = false then
      (enrichShortcutsWithAnnotations annotations shortcuts, cache)
    else
      (enrichShortcutsWithAnnotations annotations
        (parseShortcutsList cliOutput),
       .cached (parseShortcutsList cliOutput) (.parsed now))
  | _ =>
    (enrichShortcutsWithAnnotations annotations
      (parseShortcutsList cliOutput),
     .cached (parseShortcutsList cliOutput) (.parsed now))

/-! ## Purpose annotations (`recordPurpose` of the current server) -/

/-- Characters with leading spaces removed. -/
def dropLeadingSpaces : List Char → List Char
  | [] => []
  | c :: rest => if c = ' ' then dropLeadingSpaces rest else c :: rest

/-- Characters with leading and trailing spaces removed. -/
def trimChars (cs : List Char) : List Char :=
  (dropLeadingSpaces ((dropLeadingSpaces cs).reverse)).reverse

/-- Modelled from the spec: the case/whitespace normalization of
`isDuplicatePurpose`, which lives in the newer `helpers.js` that is missing
from the source tree (only `recordPurpose`, its caller, is present); spec
§4.6 says a purpose is skipped when it "case/whitespace-normalized
duplicates any existing entry" — lowercase and trim. -/
def normalizePurpose (s : String) : String :=
  String.mk (trimChars (s.toList.map Char.toLower))

/-- Modelled from the spec: `isDuplicatePurpose(purpose, purposes)` from the
missing `helpers.js` — true iff the normalized purpose matches some existing
entry. -/
def isDuplicatePurpose (purpose : String) (purposes : List String) : Bool :=
  purposes.any fun p => normalizePurpose p == normalizePurpose purpose

/-- The most recent `n` entries of a list (`slice(-n)`, oldest dropped
first). -/
def lastN {α : Type} (n : Nat) (l : List α) : List α :=
  l.drop (l.length - n)

/-- The `PURPOSE_CAP` constant of `shortcuts-usage.js`. -/
def PURPOSE_CAP : Nat := 8

/-- The purposes stored for a shortcut in a possibly-absent annotations map:
`profile.annotations?.[shortcut] ?? { purposes: [] }`. -/
def purposesOf (annotations : Option (List (String × List String)))
    (shortcut : String) : List String :=
  match annotations with
  | some ann => (lookupKey ann shortcut).getD []
  | none => []

/-- Embedding of `recordPurpose({ purpose, shortcut })` of the current
server (`src/skills/swift-dev/SKILL.md`): read the shortcut's annotation
entry (or `{ purposes: [] }`), skip duplicates, else push and, when the cap
is exceeded, keep `slice(-PURPOSE_CAP)`; write the updated entry back under
the shortcut's key (the spread + computed-key assignment), creating the
`annotations` map if absent. -/
def recordPurpose (annotations : Option (List (String × List String)))
    (shortcut purpose : String) : Option (List (String × List String)) :=
  let existing := purposesOf annotations shortcut
  if isDuplicatePurpose purpose existing then annotations
  else
    let purposes := existing ++ [purpose]
    let purposes :=
      if PURPOSE_CAP < purposes.length then lastN PURPOSE_CAP purposes
      else purposes
    some (setKey (annotations.getD []) shortcut purposes)

/-- A sequence of `recordPurpose` calls. -/
def recordPurposes (annotations : Option (List (String × List String))) :
    List (String × String) → Option (List (String × List String))
  | [] => annotations
  | (s, p) :: rest => recordPurposes (recordPurpose annotations s p) rest

end WorkflowTools

namespace WorkflowTools

/-! ## Helper lemmas -/

theorem listInfix_cons_of_listInfix {pat l : List Char} (c : Char)
    (h : listInfix pat l = true) : listInfix pat (c :: l) = true := by
  cases l with
  | nil =>
    simp [listInfix] at h
    simp [listInfix, h, List.isPrefixOf]
  | cons x xs =>
    simp [listInfix] at h ⊢
    exact Or.inr h

theorem listInfix_append_left {pat l : List Char} (pre : List Char)
    (h : listInfix pat l = true) : listInfix pat (pre ++ l) = true := by
  induction pre with
  | nil => simpa using h
  | cons c cs ih => exact listInfix_cons_of_listInfix c ih

/-- Appending a prefix on the left preserves JS `includes`. -/
theorem includes_append_left (pre s pat : String)
    (h : includes s pat = true) : includes (pre ++ s) pat = true := by
  unfold includes at h ⊢
  have : (pre ++ s).toList = pre.toList ++ s.toList := by
    simp [String.toList]
  rw [this]
  exact listInfix_append_left pre.toList h

theorem lookupKey_eq_none {α : Type} {l : List (String × α)} {name : String} :
    lookupKey l name = none ↔ name ∉ l.map Prod.fst := by
  induction l with
  | nil => simp [lookupKey]
  | cons p rest ih =>
    obtain ⟨n, c⟩ := p
    by_cases h : n = name
    · subst h
      simp [lookupKey]
    · simp [lookupKey, h, ih, Ne.symm h]

theorem lookupKey_mem {α : Type} {l : List (String × α)} {name : String}
    {c : α} (h : lookupKey l name = some c) : (name, c) ∈ l := by
  induction l with
  | nil => simp [lookupKey] at h
  | cons p rest ih =>
    obtain ⟨n, v⟩ := p
    by_cases hn : n = name
    · subst hn
      simp [lookupKey] at h
      subst h
      exact List.mem_cons_self _ _
    · simp only [lookupKey, if_neg hn] at h
      exact List.mem_cons_of_mem _ (ih h)

theorem map_setKey_ne {α : Type} {l : List (String × α)} {name : String}
    (v : α) (h : ∀ p ∈ l, p.1 ≠ name) :
    (l.map fun p => if p.1 = name then (name, v) else p) = l := by
  induction l with
  | nil => rfl
  | cons p rest ih =>
    have h1 : p.1 ≠ name := h p (List.mem_cons_self _ _)
    simp only [List.map_cons, if_neg h1]
    rw [ih fun q hq => h q (List.mem_cons_of_mem _ hq)]

theorem setKey_decomp {α : Type} {l : List (String × α)} {name : String}
    {c : α} (v : α) (hnd : (l.map Prod.fst).Nodup)
    (h : lookupKey l name = some c) :
    ∃ l₁ l₂, l = l₁ ++ (name, c) :: l₂ ∧
      (∀ p ∈ l₁, p.1 ≠ name) ∧ (∀ p ∈ l₂, p.1 ≠ name) ∧
      setKey l name v = l₁ ++ (name, v) :: l₂ := by
  induction l with
  | nil => simp [lookupKey] at h
  | cons p rest ih =>
    obtain ⟨n, c₀⟩ := p
    simp only [List.map_cons, List.nodup_cons] at hnd
    obtain ⟨hnotin, hnd'⟩ := hnd
    by_cases hn : n = name
    · subst hn
      simp [lookupKey] at h
      subst h
      have hrest : ∀ p ∈ rest, p.1 ≠ n := by
        intro p hp hcontra
        exact hnotin (hcontra ▸ List.mem_map_of_mem Prod.fst hp)
      refine ⟨[], rest, by simp, by simp, hrest, ?_⟩
      unfold setKey
      rw [if_pos (by simp [lookupKey])]
      simp only [List.map_cons, List.nil_append]
      rw [map_setKey_ne v hrest]
      simp
    · simp only [lookupKey, if_neg hn] at h
      obtain ⟨l₁, l₂, heq, h1, h2, hset⟩ := ih hnd' h
      refine ⟨(n, c₀) :: l₁, l₂, by rw [heq]; rfl, ?_, h2, ?_⟩
      · intro p hp
        rcases List.mem_cons.mp hp with h' | h'
        · rw [h']
          exact hn
        · exact h1 p h'
      · have hsome : (lookupKey ((n, c₀) :: rest) name).isSome := by
          simp [lookupKey, hn, h]
        have hsome' : (lookupKey rest name).isSome := by
          simp [h]
        unfold setKey
        rw [if_pos hsome]
        simp only [List.map_cons, if_neg hn, List.cons_append]
        congr 1
        have : setKey rest name v =
            rest.map fun p => if p.1 = name then (name, v) else p := by
          unfold setKey
          rw [if_pos hsome']
        rw [← this, hset]

theorem totalRecords_append (l₁ l₂ : Fs) :
    totalRecords (l₁ ++ l₂) = totalRecords l₁ + totalRecords l₂ := by
  simp [totalRecords]

theorem insertDesc_perm (x : String) (l : List String) :
    List.Perm (insertDesc x l) (x :: l) := by
  induction l with
  | nil => exact List.Perm.refl _
  | cons y ys ih =>
    unfold insertDesc
    by_cases h : y < x
    · rw [if_pos h]
    · rw [if_neg h]
      exact (ih.cons y).trans (List.Perm.swap x y ys)

theorem sortDesc_perm (l : List String) : List.Perm (sortDesc l) l := by
  induction l with
  | nil => exact List.Perm.refl _
  | cons x xs ih => exact (insertDesc_perm x (sortDesc xs)).trans (ih.cons x)

theorem recordExecution_step (home : String) {fs : Fs} (d : Int) (s : String)
    (b : Bool) {ts : String} (hgood : GoodFs fs)
    (hdated : datedFile (dateString ts ++ ".json") = true) :
    ∃ fs', recordExecution home fs d s b ts = .ok fs' ∧ GoodFs fs' ∧
      totalRecords fs' = totalRecords fs + 1 := by
  obtain ⟨hnd, hwf⟩ := hgood
  cases hlk : lookupKey fs (dateString ts ++ ".json") with
  | none =>
    have hset : setKey fs (dateString ts ++ ".json")
        (RawFile.arr [⟨d, s, b, ts⟩]) =
        fs ++ [(dateString ts ++ ".json", RawFile.arr [⟨d, s, b, ts⟩])] := by
      unfold setKey
      rw [if_neg (by simp [hlk])]
    refine ⟨setKey fs (dateString ts ++ ".json")
      (RawFile.arr [⟨d, s, b, ts⟩]), by simp [recordExecution, hlk], ?_, ?_⟩
    · rw [hset]
      constructor
      · simp only [List.map_append, List.map_cons, List.map_nil]
        rw [List.nodup_append]
        exact ⟨hnd, List.nodup_singleton _,
          by simpa using fun hmem => (lookupKey_eq_none.mp hlk) hmem⟩
      · intro p hp
        rcases List.mem_append.mp hp with h' | h'
        · exact hwf p h'
        · simp only [List.mem_singleton] at h'
          subst h'
          refine ⟨[⟨d, s, b, ts⟩], rfl, hdated, ?_⟩
          intro r hr
          simp only [List.mem_singleton] at hr
          subst hr
          rfl
    · rw [hset, totalRecords_append]
      simp [totalRecords]
  | some c =>
    obtain ⟨l, hc, hd', hrec⟩ := hwf _ (lookupKey_mem hlk)
    simp only at hc
    subst hc
    obtain ⟨l₁, l₂, heq, h1, h2, hset⟩ :=
      setKey_decomp (RawFile.arr (l ++ [⟨d, s, b, ts⟩])) hnd hlk
    refine ⟨setKey fs (dateString ts ++ ".json")
      (RawFile.arr (l ++ [⟨d, s, b, ts⟩])),
      by simp [recordExecution, hlk], ?_, ?_⟩
    · rw [hset]
      constructor
      · have : ((l₁ ++ (dateString ts ++ ".json", RawFile.arr
            (l ++ [⟨d, s, b, ts⟩])) :: l₂).map Prod.fst) =
            ((l₁ ++ (dateString ts ++ ".json", RawFile.arr l) :: l₂).map
              Prod.fst) := by
          simp
        rw [this, ← heq]
        exact hnd
      · intro p hp
        rcases List.mem_append.mp hp with h' | h'
        · exact hwf p (heq ▸ List.mem_append_left _ h')
        · rcases List.mem_cons.mp h' with h'' | h''
          · subst h''
            refine ⟨l ++ [⟨d, s, b, ts⟩], rfl, hdated, ?_⟩
            intro r hr
            rcases List.mem_append.mp hr with h₃ | h₃
            · exact hrec r h₃
            · simp only [List.mem_singleton] at h₃
              subst h₃
              rfl
          · exact hwf p (heq ▸ List.mem_append_right _
              (List.mem_cons_of_mem _ h''))
    · rw [hset, heq, totalRecords_append, totalRecords_append]
      have hA : totalRecords ((dateString ts ++ ".json",
          RawFile.arr (l ++ [⟨d, s, b, ts⟩])) :: l₂) =
          l.length + 1 + totalRecords l₂ := by
        simp [totalRecords]
      have hB : totalRecords ((dateString ts ++ ".json",
          RawFile.arr l) :: l₂) = l.length + totalRecords l₂ := by
        simp [totalRecords]
      rw [hA, hB]
      omega

theorem recordMany_spec (home : String)
    (inputs : List (Int × String × Bool × String)) {fs : Fs}
    (hgood : GoodFs fs)
    (h : ∀ i ∈ inputs, datedFile (dateString i.2.2.2 ++ ".json") = true) :
    ∃ fs', recordMany home fs inputs = .ok fs' ∧ GoodFs fs' ∧
      totalRecords fs' = totalRecords fs + inputs.length := by
  induction inputs generalizing fs with
  | nil => exact ⟨fs, rfl, hgood, by simp [recordMany]⟩
  | cons i rest ih =>
    obtain ⟨d, s, b, ts⟩ := i
    obtain ⟨fs₁, he, hg₁, ht₁⟩ :=
      recordExecution_step home d s b hgood (h _ (List.mem_cons_self _ _))
    obtain ⟨fs', he', hg', ht'⟩ :=
      ih hg₁ (fun j hj => h j (List.mem_cons_of_mem _ hj))
    refine ⟨fs', ?_, hg', ?_⟩
    · simp [recordMany, he, he']
    · simp only [List.length_cons]
      omega

theorem sum_fileRecords : ∀ (fs : Fs), (fs.map Prod.fst).Nodup →
    (∀ p ∈ fs, ∃ l, p.2 = RawFile.arr l) →
    ((fs.map Prod.fst).map fun n => (fileRecords fs n).length).sum =
      totalRecords fs := by
  intro fs
  induction fs with
  | nil =>
    intro _ _
    simp [totalRecords]
  | cons p rest ih =>
    intro hnd hwf
    obtain ⟨k, c⟩ := p
    simp only [List.map_cons, List.nodup_cons] at hnd
    obtain ⟨hk, hnd'⟩ := hnd
    obtain ⟨l, hl⟩ := hwf (k, c) (List.mem_cons_self _ _)
    simp only at hl
    subst hl
    have h1 : fileRecords ((k, RawFile.arr l) :: rest) k = l := by
      simp [fileRecords, lookupKey]
    have h2 : ((rest.map Prod.fst).map fun n =>
        (fileRecords ((k, RawFile.arr l) :: rest) n).length) =
        ((rest.map Prod.fst).map fun n => (fileRecords rest n).length) := by
      apply List.map_congr_left
      intro n hn
      have hne : k ≠ n := fun h => hk (h ▸ hn)
      simp [fileRecords, lookupKey, hne]
    simp only [List.map_cons, List.sum_cons, h1, h2]
    rw [ih hnd' (fun q hq => hwf q (List.mem_cons_of_mem _ hq))]
    simp [totalRecords]

theorem loadExecutions_length {fs : Fs} (hgood : GoodFs fs) :
    (loadExecutions fs).executions.length = totalRecords fs := by
  obtain ⟨hnd, hwf⟩ := hgood
  have hfilter : (fs.map Prod.fst).filter datedFile = fs.map Prod.fst := by
    rw [List.filter_eq_self]
    intro n hn
    obtain ⟨p, hp, rfl⟩ := List.mem_map.mp hn
    obtain ⟨l, _, hd, _⟩ := hwf p hp
    exact hd
  have hperm : List.Perm (sortDesc (fs.map Prod.fst)) (fs.map Prod.fst) :=
    sortDesc_perm _
  simp only [loadExecutions, hfilter]
  rw [List.length_flatMap]
  have hcomp : (List.length ∘ fileRecords fs) =
      fun n => (fileRecords fs n).length := rfl
  rw [hcomp]
  have hsum := (hperm.map fun n => (fileRecords fs n).length).sum_eq
  rw [hsum]
  exact sum_fileRecords fs hnd
    (fun p hp => ⟨(hwf p hp).choose, (hwf p hp).choose_spec.1⟩)

theorem merge_obj_obj (t s : List (String × J)) :
    merge (.obj t) (.obj s) =
      .obj ((t.filter fun p => (lookupKey s p.1).isNone) ++ mergeSource t s) := by
  rw [merge]

theorem merge_str_right (a b : String) :
    merge (.str a) (.str b) = .str b := by
  rw [merge] <;> intros <;> simp_all

theorem mergeSource_nil (t : List (String × J)) : mergeSource t [] = [] := by
  rw [mergeSource]

theorem mergeSource_cons (t : List (String × J)) (k : String) (sv : J)
    (rest : List (String × J)) :
    mergeSource t ((k, sv) :: rest) =
      (k, match lookupKey t k with
          | some tv => merge tv sv
          | none => sv) :: mergeSource t rest := by
  rw [mergeSource]

theorem lookupKey_append_or {α : Type} (l₁ l₂ : List (String × α))
    (k : String) :
    lookupKey (l₁ ++ l₂) k = (lookupKey l₁ k).or (lookupKey l₂ k) := by
  induction l₁ with
  | nil => simp [lookupKey]
  | cons p rest ih =>
    obtain ⟨n, v⟩ := p
    by_cases h : n = k
    · subst h
      simp [lookupKey]
    · simp [lookupKey, h, ih]

theorem lookupKey_filter_eq {α : Type} {pred : String × α → Bool}
    {l : List (String × α)} {k : String}
    (h : ∀ v, (k, v) ∈ l → pred (k, v) = true) :
    lookupKey (l.filter pred) k = lookupKey l k := by
  induction l with
  | nil => simp
  | cons p rest ih =>
    obtain ⟨n, v⟩ := p
    have ih' := ih fun w hw => h w (List.mem_cons_of_mem _ hw)
    by_cases hn : n = k
    · subst hn
      rw [List.filter_cons_of_pos (h v (List.mem_cons_self _ _))]
      simp [lookupKey]
    · by_cases hp : pred (n, v) = true
      · rw [List.filter_cons_of_pos hp]
        simp only [lookupKey, if_neg hn]
        exact ih'
      · rw [List.filter_cons_of_neg (by simpa using hp)]
        simp only [lookupKey, if_neg hn]
        exact ih'

theorem lookupKey_filter_none {α : Type} {pred : String × α → Bool}
    {l : List (String × α)} {k : String}
    (h : ∀ v, (k, v) ∈ l → pred (k, v) = false) :
    lookupKey (l.filter pred) k = none := by
  induction l with
  | nil => simp [lookupKey]
  | cons p rest ih =>
    obtain ⟨n, v⟩ := p
    have ih' := ih fun w hw => h w (List.mem_cons_of_mem _ hw)
    by_cases hn : n = k
    · subst hn
      rw [List.filter_cons_of_neg
        (by simp [h v (List.mem_cons_self _ _)])]
      exact ih'
    · by_cases hp : pred (n, v) = true
      · rw [List.filter_cons_of_pos hp]
        simp only [lookupKey, if_neg hn]
        exact ih'
      · rw [List.filter_cons_of_neg (by simpa using hp)]
        exact ih'

theorem lookupKey_mergeSource_none {t s : List (String × J)} {k : String}
    (h : lookupKey s k = none) : lookupKey (mergeSource t s) k = none := by
  induction s with
  | nil =>
    rw [mergeSource_nil]
    rfl
  | cons p rest ih =>
    obtain ⟨k', sv⟩ := p
    by_cases hk : k' = k
    · subst hk
      simp [lookupKey] at h
    · simp only [lookupKey, if_neg hk] at h
      rw [mergeSource_cons]
      simp only [lookupKey, if_neg hk]
      exact ih h

theorem lookupKey_mergeSource_some {t s : List (String × J)} {k : String}
    {sv : J} (h : lookupKey s k = some sv) :
    lookupKey (mergeSource t s) k =
      some (match lookupKey t k with
            | some tv => merge tv sv
            | none => sv) := by
  induction s with
  | nil => simp [lookupKey] at h
  | cons p rest ih =>
    obtain ⟨k', sv'⟩ := p
    by_cases hk : k' = k
    · subst hk
      simp [lookupKey] at h
      subst h
      rw [mergeSource_cons]
      simp [lookupKey]
    · simp only [lookupKey, if_neg hk] at h
      rw [mergeSource_cons]
      simp only [lookupKey, if_neg hk]
      exact ih h

/-- Deep merge leaves untouched every key absent from the source. -/
theorem lookupField_merge_of_notin {t s : List (String × J)} {B : String}
    (h : lookupKey s B = none) :
    lookupField (merge (.obj t) (.obj s)) B = lookupKey t B := by
  rw [merge_obj_obj]
  simp only [lookupField]
  rw [lookupKey_append_or, lookupKey_mergeSource_none h,
    lookupKey_filter_eq fun v _ => by simp [h]]
  cases lookupKey t B <;> rfl

/-- At a key present on both sides, deep merge stores the merged value. -/
theorem lookupField_merge_of_both {t s : List (String × J)} {B : String}
    {tv sv : J} (ht : lookupKey t B = some tv)
    (hs : lookupKey s B = some sv) :
    lookupField (merge (.obj t) (.obj s)) B = some (merge tv sv) := by
  rw [merge_obj_obj]
  simp only [lookupField]
  rw [lookupKey_append_or, lookupKey_mergeSource_some hs,
    lookupKey_filter_none fun v hv => ?_, ht]
  · rfl
  · have : lookupKey s B = some sv := hs
    simp [this]

theorem lookupKey_mapReplace_self {α : Type} (v : α) :
    ∀ (l : List (String × α)) (k : String), (lookupKey l k).isSome = true →
    lookupKey (l.map fun p => if p.1 = k then (k, v) else p) k = some v := by
  intro l
  induction l with
  | nil =>
    intro k h
    simp [lookupKey] at h
  | cons p rest ih =>
    intro k h
    obtain ⟨n, c⟩ := p
    by_cases hn : n = k
    · subst hn
      rw [List.map_cons]
      have hhead : (if ((n, c) : String × α).1 = n then (n, v) else (n, c)) =
          (n, v) := if_pos rfl
      rw [hhead]
      simp [lookupKey]
    · simp only [lookupKey, if_neg hn] at h
      simp only [List.map_cons, if_neg hn]
      simp only [lookupKey, if_neg hn]
      exact ih k h

theorem lookupKey_mapReplace_ne {α : Type} (v : α) :
    ∀ (l : List (String × α)) (k k' : String), k ≠ k' →
    lookupKey (l.map fun p => if p.1 = k then (k, v) else p) k' =
      lookupKey l k' := by
  intro l
  induction l with
  | nil =>
    intro k k' _
    rfl
  | cons p rest ih =>
    intro k k' hne
    obtain ⟨n, c⟩ := p
    by_cases hn : n = k
    · subst hn
      simp only [List.map_cons, if_pos rfl]
      simp only [lookupKey, if_neg hne, if_neg (fun h => hne h)]
      exact ih _ _ hne
    · simp only [List.map_cons, if_neg hn]
      by_cases hk' : n = k'
      · subst hk'
        simp [lookupKey]
      · simp only [lookupKey, if_neg hk']
        exact ih _ _ hne

theorem lookupKey_setKey_self {α : Type} (l : List (String × α)) (k : String)
    (v : α) : lookupKey (setKey l k v) k = some v := by
  unfold setKey
  by_cases h : (lookupKey l k).isSome = true
  · rw [if_pos h]
    exact lookupKey_mapReplace_self v l k h
  · rw [if_neg h, lookupKey_append_or]
    have hnone : lookupKey l k = none := by
      cases hl : lookupKey l k with
      | none => rfl
      | some w => exact absurd (by simp [hl]) h
    rw [hnone]
    simp [lookupKey]

theorem lookupKey_setKey_ne {α : Type} (l : List (String × α))
    {k k' : String} (v : α) (h : k ≠ k') :
    lookupKey (setKey l k v) k' = lookupKey l k' := by
  unfold setKey
  by_cases hs : (lookupKey l k).isSome = true
  · rw [if_pos hs]
    exact lookupKey_mapReplace_ne v l k k' h
  · rw [if_neg hs, lookupKey_append_or]
    cases hl : lookupKey l k' with
    | some w => rfl
    | none => simp [lookupKey, h]

theorem lastN_length_le {α : Type} (n : Nat) (l : List α) :
    (lastN n l).length ≤ n := by
  simp only [lastN, List.length_drop]
  omega

theorem lastN_of_le {α : Type} {n : Nat} {l : List α} (h : l.length ≤ n) :
    lastN n l = l := by
  have hz : l.length - n = 0 := by omega
  rw [lastN, hz, List.drop_zero]

/-- The skip path of `recordPurpose`: a duplicate leaves the store
unchanged. -/
theorem recordPurpose_of_dup
    {annotations : Option (List (String × List String))}
    {shortcut purpose : String}
    (h : isDuplicatePurpose purpose (purposesOf annotations shortcut) =
      true) :
    recordPurpose annotations shortcut purpose = annotations := by
  simp only [recordPurpose]
  rw [if_pos h]

/-- The append path of `recordPurpose`: the conditional `slice(-8)` is
extensionally `lastN PURPOSE_CAP`. -/
theorem recordPurpose_of_new
    {annotations : Option (List (String × List String))}
    {shortcut purpose : String}
    (h : isDuplicatePurpose purpose (purposesOf annotations shortcut) =
      false) :
    recordPurpose annotations shortcut purpose =
      some (setKey (annotations.getD []) shortcut
        (lastN PURPOSE_CAP (purposesOf annotations shortcut ++
          [purpose]))) := by
  simp only [recordPurpose]
  rw [if_neg (by simp [h])]
  by_cases hlen : PURPOSE_CAP <
      (purposesOf annotations shortcut ++ [purpose]).length
  · rw [if_pos hlen]
  · rw [if_neg hlen]
    rw [lastN_of_le (by omega)]

theorem recordPurpose_bound
    {annotations : Option (List (String × List String))}
    (shortcut purpose : String)
    (h : ∀ s, (purposesOf annotations s).length ≤ 8) :
    ∀ s, (purposesOf (recordPurpose annotations shortcut purpose) s).length
      ≤ 8 := by
  intro s
  by_cases hdup : isDuplicatePurpose purpose
      (purposesOf annotations shortcut) = true
  · rw [recordPurpose_of_dup hdup]
    exact h s
  · rw [recordPurpose_of_new (by simpa using hdup)]
    by_cases hs : shortcut = s
    · subst hs
      simp only [purposesOf]
      rw [lookupKey_setKey_self]
      simp only [Option.getD_some]
      exact lastN_length_le PURPOSE_CAP _
    · simp only [purposesOf]
      rw [lookupKey_setKey_ne _ _ hs]
      cases annotations with
      | some ann => exact h s
      | none => simp [lookupKey]

theorem recordPurposes_bound :
    ∀ (calls : List (String × String))
      (annotations : Option (List (String × List String))),
    (∀ s, (purposesOf annotations s).length ≤ 8) →
    ∀ s, (purposesOf (recordPurposes annotations calls) s).length ≤ 8 := by
  intro calls
  induction calls with
  | nil =>
    intro ann h s
    exact h s
  | cons c rest ih =>
    intro ann h s
    obtain ⟨sc, pu⟩ := c
    exact ih (recordPurpose ann sc pu) (recordPurpose_bound sc pu h) s

/-- Lookup through the key-preserving map of
`enrichShortcutsWithAnnotations`. -/
theorem lookupKey_enrichMap (ann : List (String × List String))
    (shortcuts : List (String × ShortcutInfo)) (k : String) :
    lookupKey (shortcuts.map fun p => (p.1,
      match lookupKey ann p.1 with
      | some purposes =>
        if purposes.length ≠ 0 then ⟨p.2.id, some purposes⟩ else p.2
      | none => p.2)) k =
      (lookupKey shortcuts k).map fun v =>
        match lookupKey ann k with
        | some purposes =>
          if purposes.length ≠ 0 then (⟨v.id, some purposes⟩ : ShortcutInfo)
          else v
        | none => v := by
  induction shortcuts with
  | nil => rfl
  | cons p rest ih =>
    obtain ⟨n, v⟩ := p
    by_cases h : n = k
    · subst h
      simp [lookupKey]
    · simp only [List.map_cons, lookupKey, if_neg h]
      exact ih

/-- C9: the freshness predicate `isOlderThan24Hrs` reports a missing (absent or
empty) timestamp as older than 24 hours (not fresh), a present but unparseable
timestamp as not older than 24 hours (fresh), and otherwise compares against
the fixed 24-hour threshold relative to the current time. -/
theorem isOlderThan24Hrs_spec (now : Int) :
    isOlderThan24Hrs now .missing = true ∧
    isOlderThan24Hrs now .unparseable = false ∧
    ∀ ts : Int, isOlderThan24Hrs now (.parsed ts) = true ↔
      now - ts > 24 * 60 * 60 * 1000 := by
  refine ⟨rfl, rfl, fun ts => ?_⟩
  simp [isOlderThan24Hrs]

/-- C1 (amended): when the daily log for the attempt's date is absent or
parses as an array, every `runShortcut` invocation appends exactly one
telemetry record — with `success = true` and the output returned on success,
with `success = false` and a descriptive error on failure — and touches no
other file; when that daily log exists but is corrupt, the strict load
raises, no record is appended, and the corruption error propagates on both
paths. -/
theorem runShortcut_telemetry_spec (home : String) (fs : Fs)
    (shortcut : String) (input : Option String) (outcome : ExecOutcome)
    (duration : Int) (ts : String) :
    ((lookupKey fs (dateString ts ++ ".json") = none ∨
      (∃ l, lookupKey fs (dateString ts ++ ".json") =
        some (RawFile.arr l))) →
      (lookupKey (runShortcut home fs shortcut input outcome duration ts).fs
          (dateString ts ++ ".json") =
        some (RawFile.arr (pastRecords fs ts ++
          [⟨duration, shortcut, execSuccess outcome, ts⟩])) ∧
      (∀ name, name ≠ dateString ts ++ ".json" →
        lookupKey (runShortcut home fs shortcut input outcome duration ts).fs
          name = lookupKey fs name) ∧
      (∀ stdout stderr, outcome = .ok stdout stderr →
        ∃ s, (runShortcut home fs shortcut input outcome duration ts).result
          = .ok s) ∧
      (∀ isExec msg, outcome = .err isExec msg →
        ∃ e, (runShortcut home fs shortcut input outcome duration ts).result
          = .error e))) ∧
    (lookupKey fs (dateString ts ++ ".json") = some RawFile.invalid →
      (runShortcut home fs shortcut input outcome duration ts).fs = fs ∧
      (runShortcut home fs shortcut input outcome duration ts).result =
        .error ("File at " ++ executionsDir home ++
          (dateString ts ++ ".json") ++ " corrupted - please reset")) := by
  constructor
  · intro hstore
    have hrec : ∀ b : Bool, recordExecution home fs duration shortcut b ts =
        .ok (setKey fs (dateString ts ++ ".json")
          (RawFile.arr (pastRecords fs ts ++
            [⟨duration, shortcut, b, ts⟩]))) := by
      intro b
      rcases hstore with h | ⟨l, h⟩
      · simp [recordExecution, h, pastRecords]
      · simp [recordExecution, h, pastRecords]
    have hfs : (runShortcut home fs shortcut input outcome duration ts).fs =
        setKey fs (dateString ts ++ ".json")
          (RawFile.arr (pastRecords fs ts ++
            [⟨duration, shortcut, execSuccess outcome, ts⟩])) := by
      rcases outcome with ⟨stdout, stderr⟩ | ⟨isExec, msg⟩
      · simp only [runShortcut, execSuccess]
        rw [hrec true]
      · simp only [runShortcut, execSuccess]
        rw [hrec false]
    refine ⟨?_, ?_, ?_, ?_⟩
    · rw [hfs]
      exact lookupKey_setKey_self _ _ _
    · intro name hn
      rw [hfs]
      exact lookupKey_setKey_ne _ _ fun hcontra => hn hcontra.symm
    · intro stdout stderr hout
      subst hout
      refine ⟨if stdout ≠ "" ∧ stdout ≠ "missing value\n" then stdout
        else "Shortcut completed successfully", ?_⟩
      simp only [runShortcut]
      rw [hrec true]
    · intro isExec msg hout
      subst hout
      refine ⟨if isExec then "Failed to run " ++ shortcut ++ " shortcut: "
        ++ msg else msg, ?_⟩
      simp only [runShortcut]
      rw [hrec false]
  · intro hbad
    have hrec : ∀ b : Bool, recordExecution home fs duration shortcut b ts =
        .error ("File at " ++ executionsDir home ++
          (dateString ts ++ ".json") ++ " corrupted - please reset") := by
      intro b
      simp [recordExecution, hbad]
    rcases outcome with ⟨stdout, stderr⟩ | ⟨isExec, msg⟩
    · constructor
      · simp only [runShortcut]
        rw [hrec true]
      · simp only [runShortcut]
        rw [hrec true]
    · constructor
      · simp only [runShortcut]
        rw [hrec false]
      · simp only [runShortcut]
        rw [hrec false]

/-- Witness for the amended C1: a failing run on an empty directory appends
one `success = false` record; a run over a corrupt daily log leaves the
directory unchanged. -/
theorem runShortcut_telemetry_spec_witness :
    lookupKey (runShortcut "/Users/u" [] "Foo" none (.err true "boom") 5
        "2025-08-02T12:00:00.000Z").fs
      (dateString "2025-08-02T12:00:00.000Z" ++ ".json") =
      some (RawFile.arr (pastRecords [] "2025-08-02T12:00:00.000Z" ++
        [⟨5, "Foo", execSuccess (.err true "boom"),
          "2025-08-02T12:00:00.000Z"⟩])) ∧
    (runShortcut "/Users/u" [("2025-08-02.json", RawFile.invalid)] "Foo" none
      (.ok "out" "") 5 "2025-08-02T12:00:00.000Z").fs =
      [("2025-08-02.json", RawFile.invalid)] :=
  ⟨((runShortcut_telemetry_spec "/Users/u" [] "Foo" none (.err true "boom") 5
      "2025-08-02T12:00:00.000Z").1 (Or.inl rfl)).1,
   ((runShortcut_telemetry_spec "/Users/u"
      [("2025-08-02.json", RawFile.invalid)] "Foo" none (.ok "out" "") 5
      "2025-08-02T12:00:00.000Z").2 (by decide)).1⟩

/-- C1 counterexample: with a corrupt daily log for the current date, even a
successful execution appends no telemetry record and surfaces the corruption
error instead of the output — the unconditional one-append-per-attempt
property fails on the code. -/
theorem runShortcut_telemetry_counterexample :
    (runShortcut "/Users/u" [("2025-08-02.json", RawFile.invalid)] "Foo" none
      (.ok "All done\n" "") 5 "2025-08-02T12:00:00.000Z").fs =
      [("2025-08-02.json", RawFile.invalid)] ∧
    (runShortcut "/Users/u" [("2025-08-02.json", RawFile.invalid)] "Foo" none
      (.ok "All done\n" "") 5 "2025-08-02T12:00:00.000Z").result =
      .error ("File at " ++ executionsDir "/Users/u" ++
        (dateString "2025-08-02T12:00:00.000Z" ++ ".json") ++
        " corrupted - please reset") := by
  exact ⟨rfl, rfl⟩

/-- C6 (amended): for a run failing with the OS permission-denied signal
(message containing "1743" or "permission"), provided the daily log for the
current date is absent or parses as an array, the special-case log entry
with actionable guidance is emitted, the propagated descriptive error still
carries the permission signal (so it is identifiable as permission-denied),
and a record with `success = false` is appended; when that daily log is
corrupt, the corruption error propagates instead and no record is
persisted. -/
theorem runShortcut_permission_spec (home : String) (fs : Fs)
    (shortcut : String) (input : Option String) (msg : String)
    (duration : Int) (ts : String) (hsig : isPermissionSignal msg = true) :
    ((lookupKey fs (dateString ts ++ ".json") = none ∨
      (∃ l, lookupKey fs (dateString ts ++ ".json") =
        some (RawFile.arr l))) →
      (LogEntry.errorPermissionDenied shortcut permissionSolution ∈
        (runShortcut home fs shortcut input (.err true msg) duration
          ts).logs ∧
      (runShortcut home fs shortcut input (.err true msg) duration ts).result
        = .error ("Failed to run " ++ shortcut ++ " shortcut: " ++ msg) ∧
      (∀ e, (runShortcut home fs shortcut input (.err true msg) duration
          ts).result = .error e → isPermissionSignal e = true) ∧
      lookupKey (runShortcut home fs shortcut input (.err true msg) duration
          ts).fs (dateString ts ++ ".json") =
        some (RawFile.arr (pastRecords fs ts ++
          [⟨duration, shortcut, false, ts⟩])))) ∧
    (lookupKey fs (dateString ts ++ ".json") = some RawFile.invalid →
      (runShortcut home fs shortcut input (.err true msg) duration ts).fs =
        fs ∧
      (runShortcut home fs shortcut input (.err true msg) duration ts).result
        = .error ("File at " ++ executionsDir home ++
          (dateString ts ++ ".json") ++ " corrupted - please reset")) := by
  constructor
  · intro hstore
    have hrec : recordExecution home fs duration shortcut false ts =
        .ok (setKey fs (dateString ts ++ ".json")
          (RawFile.arr (pastRecords fs ts ++
            [⟨duration, shortcut, false, ts⟩]))) := by
      rcases hstore with h | ⟨l, h⟩
      · simp [recordExecution, h, pastRecords]
      · simp [recordExecution, h, pastRecords]
    refine ⟨?_, ?_, ?_, ?_⟩
    · simp only [runShortcut]
      rw [hrec]
      simp [hsig]
    · simp only [runShortcut]
      rw [hrec]
      simp
    · intro e he
      simp only [runShortcut] at he
      rw [hrec] at he
      simp at he
      subst he
      unfold isPermissionSignal at hsig ⊢
      rcases Bool.or_eq_true_iff.mp hsig with h' | h'
      · exact Bool.or_eq_true_iff.mpr
          (Or.inl (includes_append_left _ _ _ h'))
      · exact Bool.or_eq_true_iff.mpr
          (Or.inr (includes_append_left _ _ _ h'))
    · simp only [runShortcut]
      rw [hrec]
      exact lookupKey_setKey_self _ _ _
  · intro hbad
    have hrec : recordExecution home fs duration shortcut false ts =
        .error ("File at " ++ executionsDir home ++
          (dateString ts ++ ".json") ++ " corrupted - please reset") := by
      simp [recordExecution, hbad]
    constructor
    · simp only [runShortcut]
      rw [hrec]
    · simp only [runShortcut]
      rw [hrec]

/-- C3: starting from an empty executions directory, any sequence of N
successful `recordExecution` calls (with ISO timestamps, across any number of
distinct days) yields a directory on which `loadExecutions` returns a
flattened list of exactly N records, with distinct daily-log filenames, every
file an array, and every record stored in the one file named by the date
component of its timestamp. -/
theorem recordMany_loadExecutions_spec (home : String)
    (inputs : List (Int × String × Bool × String))
    (h : ∀ i ∈ inputs, datedFile (dateString i.2.2.2 ++ ".json") = true) :
    ∃ fs, recordMany home [] inputs = .ok fs ∧
      (loadExecutions fs).executions.length = inputs.length ∧
      (fs.map Prod.fst).Nodup ∧
      ∀ p ∈ fs, ∃ l, p.2 = RawFile.arr l ∧
        ∀ r ∈ l, p.1 = dateString r.timestamp ++ ".json" := by
  have hgood : GoodFs [] := ⟨List.nodup_nil, by simp⟩
  obtain ⟨fs, he, hg, ht⟩ := recordMany_spec home inputs hgood h
  refine ⟨fs, he, ?_, hg.1, ?_⟩
  · rw [loadExecutions_length hg, ht]
    simp [totalRecords]
  · intro p hp
    obtain ⟨l, hl, _, hr⟩ := hg.2 p hp
    exact ⟨l, hl, hr⟩

/-- Witness for C3: two appends on distinct days produce two records. -/
theorem recordMany_loadExecutions_spec_witness :
    ∃ fs, recordMany "/Users/u" []
      [(3, "Foo", true, "2025-08-02T10:00:00.000Z"),
       (4, "Bar", false, "2025-08-03T11:30:00.000Z")] = .ok fs ∧
      (loadExecutions fs).executions.length =
        [(3, "Foo", true, "2025-08-02T10:00:00.000Z"),
         ((4 : Int), "Bar", false, "2025-08-03T11:30:00.000Z")].length ∧
      (fs.map Prod.fst).Nodup ∧
      ∀ p ∈ fs, ∃ l, p.2 = RawFile.arr l ∧
        ∀ r ∈ l, p.1 = dateString r.timestamp ++ ".json" :=
  recordMany_loadExecutions_spec "/Users/u"
    [(3, "Foo", true, "2025-08-02T10:00:00.000Z"),
     (4, "Bar", false, "2025-08-03T11:30:00.000Z")] (by decide)

/-- C7: `loadExecutions` reports as `days` the number of date-named files
attempted (not the number successfully parsed), includes in the flattened
result every record of every date-named file that parses to an array, and
emits a skip warning for every date-named file that does not parse to an
array, without failing the aggregate read. -/
theorem loadExecutions_tolerant_spec (fs : Fs) :
    (loadExecutions fs).days = ((fs.map Prod.fst).filter datedFile).length ∧
    (∀ name l, lookupKey fs name = some (.arr l) → datedFile name = true →
      ∀ r ∈ l, r ∈ (loadExecutions fs).executions) ∧
    (∀ name c, lookupKey fs name = some c → datedFile name = true →
      (∀ l, c ≠ .arr l) → name ∈ (loadExecutions fs).warnings) := by
  refine ⟨?_, ?_, ?_⟩
  · simp only [loadExecutions]
    exact (sortDesc_perm _).length_eq
  · intro name l hlk hd r hr
    have hmem : name ∈ sortDesc ((fs.map Prod.fst).filter datedFile) := by
      refine (sortDesc_perm _).mem_iff.mpr ?_
      exact List.mem_filter.mpr
        ⟨List.mem_map.mpr ⟨(name, .arr l), lookupKey_mem hlk, rfl⟩, hd⟩
    simp only [loadExecutions]
    refine List.mem_flatMap.mpr ⟨name, hmem, ?_⟩
    simp [fileRecords, hlk, hr]
  · intro name c hlk hd hne
    have hmem : name ∈ sortDesc ((fs.map Prod.fst).filter datedFile) := by
      refine (sortDesc_perm _).mem_iff.mpr ?_
      exact List.mem_filter.mpr
        ⟨List.mem_map.mpr ⟨(name, c), lookupKey_mem hlk, rfl⟩, hd⟩
    simp only [loadExecutions]
    refine List.mem_filter.mpr ⟨hmem, ?_⟩
    cases c with
    | arr l => exact absurd rfl (hne l)
    | nonArray => simp [hlk]
    | invalid => simp [hlk]

/-- Witness for C7: a directory with one valid daily log and one corrupted
daily log still yields the valid day's record and warns about the corrupted
file. -/
theorem loadExecutions_tolerant_spec_witness :
    (⟨3, "Foo", true, "2025-08-01T09:00:00.000Z"⟩ : Execution) ∈
      (loadExecutions [("2025-08-01.json",
        RawFile.arr [⟨3, "Foo", true, "2025-08-01T09:00:00.000Z"⟩]),
        ("2025-08-02.json", RawFile.invalid)]).executions ∧
    "2025-08-02.json" ∈
      (loadExecutions [("2025-08-01.json",
        RawFile.arr [⟨3, "Foo", true, "2025-08-01T09:00:00.000Z"⟩]),
        ("2025-08-02.json", RawFile.invalid)]).warnings :=
  ⟨(loadExecutions_tolerant_spec _).2.1 "2025-08-01.json"
      [⟨3, "Foo", true, "2025-08-01T09:00:00.000Z"⟩] (by decide) (by decide)
      _ (List.mem_singleton.mpr rfl),
   (loadExecutions_tolerant_spec _).2.2 "2025-08-02.json" RawFile.invalid
      (by decide) (by decide) (fun l h => RawFile.noConfusion h)⟩

/-- C10: if the daily-log file for the current date exists but contains
invalid JSON, `recordExecution` fails with the hard error naming the file and
asking for a reset, and appends no record (it never returns an updated
directory). -/
theorem recordExecution_corrupt_spec (home : String) (fs : Fs)
    (duration : Int) (shortcut : String) (success : Bool) (ts : String)
    (h : lookupKey fs (dateString ts ++ ".json") = some .invalid) :
    recordExecution home fs duration shortcut success ts =
      .error ("File at " ++ executionsDir home ++ (dateString ts ++ ".json")
        ++ " corrupted - please reset") ∧
    ∀ fs', recordExecution home fs duration shortcut success ts ≠ .ok fs' := by
  have e : recordExecution home fs duration shortcut success ts =
      .error ("File at " ++ executionsDir home ++ (dateString ts ++ ".json")
        ++ " corrupted - please reset") := by
    simp [recordExecution, h]
  exact ⟨e, fun fs' hc => by rw [e] at hc; exact Except.noConfusion hc⟩

/-- Witness for C10 at a concrete corrupted daily log. -/
theorem recordExecution_corrupt_spec_witness :
    recordExecution "/Users/u" [("2025-08-02.json", RawFile.invalid)]
      3 "Foo" true "2025-08-02T12:00:00.000Z" =
      .error ("File at " ++ executionsDir "/Users/u" ++
        (dateString "2025-08-02T12:00:00.000Z" ++ ".json") ++
        " corrupted - please reset") :=
  (recordExecution_corrupt_spec "/Users/u"
    [("2025-08-02.json", RawFile.invalid)] 3 "Foo" true
    "2025-08-02T12:00:00.000Z" (by decide)).1

/-- C2: `requestStatistics` returns the stored snapshot unchanged without
invoking sampling whenever it is fresh (`generatedAt` within 24 hours); when
it is stale, the sampling capability is invoked iff the session exposes it
and there are at least 3 days of data and at least 20 records; when stale and
that condition fails, the previously existing snapshot is returned unchanged
without sampling. -/
theorem requestStatistics_spec (now : Int) (stats : StatsDoc)
    (samplingCap : Bool) (days : Nat) (executions : List Execution)
    (res : SamplingOutcome) :
    (isOlderThan24Hrs now stats.generatedAt = false →
      requestStatistics now stats samplingCap days executions res =
        ⟨.doc stats, false, false⟩) ∧
    (isOlderThan24Hrs now stats.generatedAt = true →
      ((requestStatistics now stats samplingCap days executions res).sampled =
          true ↔
        (samplingCap = true ∧ 3 ≤ days ∧ 20 ≤ executions.length))) ∧
    (isOlderThan24Hrs now stats.generatedAt = true →
      ¬(samplingCap = true ∧ 3 ≤ days ∧ 20 ≤ executions.length) →
      requestStatistics now stats samplingCap days executions res =
        ⟨.doc stats, false, false⟩) := by
  refine ⟨fun h => ?_, fun h => ?_, fun h hn => ?_⟩
  · simp [requestStatistics, h]
  · by_cases hc : samplingCap = true ∧ 3 ≤ days ∧ 20 ≤ executions.length
    · unfold requestStatistics
      rw [if_neg (by simp [h]), if_pos hc]
      rcases res with _ | _ | parsed
      · exact iff_of_true rfl hc
      · exact iff_of_true rfl hc
      · rcases parsed with _ | v
        · exact iff_of_true rfl hc
        · cases v <;> exact iff_of_true rfl hc
    · unfold requestStatistics
      rw [if_neg (by simp [h]), if_neg hc]
      exact iff_of_false (by simp) hc
  · unfold requestStatistics
    rw [if_neg (by simp [h]), if_neg hn]

/-- Witness for C2: a fresh snapshot is returned as-is; a stale one with 3
days / 20 records and the capability triggers sampling; a stale one without
the capability is returned as-is with no sampling. -/
theorem requestStatistics_spec_witness :
    requestStatistics 0 ⟨.parsed 0, .null⟩ true 5 [] .failed =
      ⟨.doc ⟨.parsed 0, .null⟩, false, false⟩ ∧
    ((requestStatistics 86400002 ⟨.parsed 0, .null⟩ true 3
        (List.replicate 20 ⟨1, "a", true, "t"⟩) (.text none)).sampled = true ↔
      (true = true ∧ 3 ≤ 3 ∧ 20 ≤ (List.replicate 20
        (⟨1, "a", true, "t"⟩ : Execution)).length)) ∧
    requestStatistics 86400002 ⟨.parsed 0, .null⟩ false 3
        (List.replicate 20 ⟨1, "a", true, "t"⟩) (.text none) =
      ⟨.doc ⟨.parsed 0, .null⟩, false, false⟩ :=
  ⟨(requestStatistics_spec 0 ⟨.parsed 0, .null⟩ true 5 [] .failed).1
      (by decide),
   (requestStatistics_spec 86400002 ⟨.parsed 0, .null⟩ true 3
      (List.replicate 20 ⟨1, "a", true, "t"⟩) (.text none)).2.1 (by decide),
   (requestStatistics_spec 86400002 ⟨.parsed 0, .null⟩ false 3
      (List.replicate 20 ⟨1, "a", true, "t"⟩) (.text none)).2.2 (by decide)
      (by simp)⟩

/-- C8 counterexample: a `saveStatistics` call whose partial update document
touches only the key `executions` still changes the pre-existing sibling key
`generatedAt` of the stored document, because `saveStatistics` stamps
`data.generatedAt` with the current time before merging — so the claim as
stated fails for `saveStatistics` with B = `generatedAt`. -/
theorem saveStatistics_generatedAt_counterexample :
    lookupField (saveStatistics "2025-08-02T00:00:00.000Z"
      (J.obj [("generatedAt", J.str "2025-08-01T00:00:00.000Z"),
              ("total", J.num 7)])
      (J.obj [("executions", J.num 1)])) "generatedAt" =
      some (J.str "2025-08-02T00:00:00.000Z") ∧
    lookupKey [("generatedAt", J.str "2025-08-01T00:00:00.000Z"),
               ("total", J.num 7)] "generatedAt" =
      some (J.str "2025-08-01T00:00:00.000Z") ∧
    "2025-08-02T00:00:00.000Z" ≠ "2025-08-01T00:00:00.000Z" := by
  refine ⟨?_, rfl, by decide⟩
  have hstamp : saveStatistics "2025-08-02T00:00:00.000Z"
      (J.obj [("generatedAt", J.str "2025-08-01T00:00:00.000Z"),
              ("total", J.num 7)])
      (J.obj [("executions", J.num 1)]) =
      merge (J.obj [("generatedAt", J.str "2025-08-01T00:00:00.000Z"),
                    ("total", J.num 7)])
        (J.obj [("executions", J.num 1),
                ("generatedAt", J.str "2025-08-02T00:00:00.000Z")]) := rfl
  have hb := @lookupField_merge_of_both
    [("generatedAt", J.str "2025-08-01T00:00:00.000Z"), ("total", J.num 7)]
    [("executions", J.num 1),
     ("generatedAt", J.str "2025-08-02T00:00:00.000Z")]
    "generatedAt" (J.str "2025-08-01T00:00:00.000Z")
    (J.str "2025-08-02T00:00:00.000Z") rfl rfl
  rw [hstamp, hb, merge_str_right]

/-- C8 (amended): a deep-merge save whose partial update document does not
touch key B leaves B's stored value unchanged — unconditionally for
`saveUserProfile`, and for every B other than `generatedAt` for
`saveStatistics`, which always restamps `generatedAt` with the save time. -/
theorem save_deepMerge_sibling_spec (stored data : List (String × J))
    (now : String) (B : String) (hB : lookupKey data B = none) :
    lookupField (saveUserProfile (.obj stored) (.obj data)) B =
      lookupKey stored B ∧
    (B ≠ "generatedAt" →
      lookupField (saveStatistics now (.obj stored) (.obj data)) B =
        lookupKey stored B) := by
  constructor
  · exact lookupField_merge_of_notin hB
  · intro hne
    have hsk : lookupKey (setKey data "generatedAt" (.str now)) B = none := by
      rw [lookupKey_setKey_ne data (.str now) fun hcontra => hne hcontra.symm]
      exact hB
    exact lookupField_merge_of_notin hsk

/-- Witness for the amended C8 at concrete documents: the untouched sibling
key `b` survives both kinds of save. -/
theorem save_deepMerge_sibling_spec_witness :
    lookupField (saveUserProfile (J.obj [("a", J.num 1), ("b", J.num 2)])
      (J.obj [("a", J.num 9)])) "b" =
      lookupKey [("a", J.num 1), ("b", J.num 2)] "b" ∧
    lookupField (saveStatistics "2025-08-02T00:00:00.000Z"
      (J.obj [("a", J.num 1), ("b", J.num 2)]) (J.obj [("a", J.num 9)])) "b" =
      lookupKey [("a", J.num 1), ("b", J.num 2)] "b" :=
  ⟨(save_deepMerge_sibling_spec [("a", J.num 1), ("b", J.num 2)]
      [("a", J.num 9)] "2025-08-02T00:00:00.000Z" "b" rfl).1,
   (save_deepMerge_sibling_spec [("a", J.num 1), ("b", J.num 2)]
      [("a", J.num 9)] "2025-08-02T00:00:00.000Z" "b" rfl).2 (by decide)⟩

/-- C4: for every catalog refresh (missing cache, unreadable cache, or TTL
expiry in `getShortcutsList`), every shortcut of the freshly parsed listing
whose profile annotation entry holds recorded purposes carries exactly those
purposes in the returned catalog — in particular every shortcut present both
before and after the refresh — because the refresh re-merges the recorded
annotations and never silently drops them. -/
theorem getShortcutsList_preserves_purposes (now : Int) (cache : CacheState)
    (ann : List (String × List String)) (cliOutput : String) (name : String)
    (info : ShortcutInfo) (purposes : List String)
    (hrefresh : cache = .absent ∨ cache = .unreadable ∨
      ∃ old ts, cache = .cached old ts ∧ isOlderThan24Hrs now ts = true)
    (hafter : lookupKey (parseShortcutsList cliOutput) name = some info)
    (hrec : lookupKey ann name = some purposes) (hne : purposes ≠ []) :
    lookupKey (getShortcutsList now cache (some ann) cliOutput).1 name =
      some ⟨info.id, some purposes⟩ := by
  have henrich : lookupKey (enrichShortcutsWithAnnotations (some ann)
      (parseShortcutsList cliOutput)) name =
      some ⟨info.id, some purposes⟩ := by
    simp only [enrichShortcutsWithAnnotations]
    rw [lookupKey_enrichMap, hafter, hrec]
    simp only [Option.map_some']
    rw [if_pos fun hcontra => hne (List.length_eq_zero.mp hcontra)]
  rcases hrefresh with h | h | ⟨old, ts, hc, hstale⟩
  · subst h
    exact henrich
  · subst h
    exact henrich
  · subst hc
    simp only [getShortcutsList]
    rw [if_neg (by simp [hstale])]
    exact henrich

/-- Witness for C4 at a concrete refresh: the shortcut `Foo`, parsed from
the listing output, keeps its two recorded purposes. -/
theorem getShortcutsList_preserves_purposes_witness :
    lookupKey (getShortcutsList 0 .absent
      (some [("Foo", ["check weather", "plan trip"])])
      "Foo (id-1)\nBar (id-2)").1 "Foo" =
      some ⟨"id-1", some ["check weather", "plan trip"]⟩ :=
  getShortcutsList_preserves_purposes 0 .absent
    [("Foo", ["check weather", "plan trip"])] "Foo (id-1)\nBar (id-2)"
    "Foo" ⟨"id-1", none⟩ ["check weather", "plan trip"]
    (Or.inl rfl) (by decide) rfl (by decide)

/-- C5: after any sequence of `recordPurpose` calls starting from an empty
profile, every shortcut's purpose list has length at most `PURPOSE_CAP = 8`;
a call whose normalized purpose duplicates an existing entry leaves the
store unchanged (no re-append); otherwise the shortcut's stored list becomes
the most recent 8 entries of the old list with the new purpose appended
(oldest dropped first). -/
theorem recordPurpose_spec (calls : List (String × String)) (s : String)
    (annotations : Option (List (String × List String)))
    (shortcut purpose : String) :
    (purposesOf (recordPurposes none calls) s).length ≤ 8 ∧
    ((∃ q ∈ purposesOf annotations shortcut,
        normalizePurpose q = normalizePurpose purpose) →
      recordPurpose annotations shortcut purpose = annotations) ∧
    ((¬∃ q ∈ purposesOf annotations shortcut,
        normalizePurpose q = normalizePurpose purpose) →
      ∃ ann', recordPurpose annotations shortcut purpose = some ann' ∧
        lookupKey ann' shortcut = some (lastN PURPOSE_CAP
          (purposesOf annotations shortcut ++ [purpose]))) := by
  refine ⟨?_, ?_, ?_⟩
  · exact recordPurposes_bound calls none (fun s' => by simp [purposesOf]) s
  · rintro ⟨q, hq, he⟩
    exact recordPurpose_of_dup
      (List.any_eq_true.mpr ⟨q, hq, by simp [he]⟩)
  · intro hne
    have hfalse : isDuplicatePurpose purpose
        (purposesOf annotations shortcut) = false := by
      by_contra hcon
      rw [Bool.not_eq_false] at hcon
      obtain ⟨q, hq, he⟩ := List.any_eq_true.mp hcon
      exact hne ⟨q, hq, by simpa using he⟩
    refine ⟨_, recordPurpose_of_new hfalse, ?_⟩
    exact lookupKey_setKey_self _ _ _

/-- Witness for C5: a case/whitespace-variant duplicate is skipped, and a
genuinely new purpose is appended (and kept within the cap). -/
theorem recordPurpose_spec_witness :
    recordPurpose (some [("Foo", ["check weather"])]) "Foo"
      " CHECK Weather " = some [("Foo", ["check weather"])] ∧
    ∃ ann', recordPurpose (some [("Foo", ["check weather"])]) "Foo"
        "plan trip" = some ann' ∧
      lookupKey ann' "Foo" = some (lastN PURPOSE_CAP
        (purposesOf (some [("Foo", ["check weather"])]) "Foo" ++
          ["plan trip"])) :=
  ⟨(recordPurpose_spec [] "Foo" (some [("Foo", ["check weather"])]) "Foo"
      " CHECK Weather ").2.1 ⟨"check weather", by decide, by decide⟩,
   (recordPurpose_spec [] "Foo" (some [("Foo", ["check weather"])]) "Foo"
      "plan trip").2.2 (by decide)⟩

/-- Witness for the amended C6: on an empty directory the permission
guidance log is emitted and the descriptive error is thrown; over a corrupt
daily log the directory is left unchanged. -/
theorem runShortcut_permission_spec_witness :
    LogEntry.errorPermissionDenied "Foo" permissionSolution ∈
      (runShortcut "/Users/u" [] "Foo" none
        (.err true "error 1743: not allowed") 7
        "2025-08-02T12:00:00.000Z").logs ∧
    (runShortcut "/Users/u" [] "Foo" none
      (.err true "error 1743: not allowed") 7
      "2025-08-02T12:00:00.000Z").result =
      .error ("Failed to run " ++ "Foo" ++ " shortcut: " ++
        "error 1743: not allowed") ∧
    (runShortcut "/Users/u" [("2025-08-02.json", RawFile.invalid)] "Foo" none
      (.err true "error 1743: not allowed") 7
      "2025-08-02T12:00:00.000Z").fs =
      [("2025-08-02.json", RawFile.invalid)] :=
  ⟨((runShortcut_permission_spec "/Users/u" [] "Foo" none
      "error 1743: not allowed" 7 "2025-08-02T12:00:00.000Z"
      (by decide)).1 (Or.inl rfl)).1,
   ((runShortcut_permission_spec "/Users/u" [] "Foo" none
      "error 1743: not allowed" 7 "2025-08-02T12:00:00.000Z"
      (by decide)).1 (Or.inl rfl)).2.1,
   ((runShortcut_permission_spec "/Users/u"
      [("2025-08-02.json", RawFile.invalid)] "Foo" none
      "error 1743: not allowed" 7 "2025-08-02T12:00:00.000Z"
      (by decide)).2 (by decide)).1⟩

/-- C6 counterexample: with a corrupt daily log for the current date, a run
failing with the 1743 permission signal persists no telemetry record and
surfaces the corruption error, which does not carry the permission signal —
so the unconditional claim fails on the code. -/
theorem runShortcut_permission_counterexample :
    isPermissionSignal "Error: scripting permission denied (1743)" = true ∧
    (runShortcut "/Users/u" [("2025-08-02.json", RawFile.invalid)] "Foo" none
      (.err true "Error: scripting permission denied (1743)") 5
      "2025-08-02T12:00:00.000Z").fs =
      [("2025-08-02.json", RawFile.invalid)] ∧
    (runShortcut "/Users/u" [("2025-08-02.json", RawFile.invalid)] "Foo" none
      (.err true "Error: scripting permission denied (1743)") 5
      "2025-08-02T12:00:00.000Z").result =
      .error ("File at " ++ executionsDir "/Users/u" ++
        (dateString "2025-08-02T12:00:00.000Z" ++ ".json") ++
        " corrupted - please reset") ∧
    isPermissionSignal ("File at " ++ executionsDir "/Users/u" ++
      (dateString "2025-08-02T12:00:00.000Z" ++ ".json") ++
      " corrupted - please reset") = false := by
  exact ⟨by decide, rfl, rfl, by decide⟩

end WorkflowTools
